import Mathlib

/-!
# read_cache.cpp : distributed epoch/batch sampler

A shallow embedding of `src/read_cache.cpp` (functions `msleep` and `main`).

* C++ `int` and `long` values are `Int`; `hsize_t` values are `Nat`.  The
  conversions between them and the `(int)` cast are written out (`toHsize`,
  `hsizeToInt`, `castInt`).
* `num_images = batch_size * num_batches * nproc` (line 182) is `int`
  arithmetic; `num_images_of` returns `none` when it leaves the `int` range.
* The rotated rank `(rank + e * rank_shift) % nproc` (line 258) is `int`
  arithmetic as the machine carries it out: every operation is reduced modulo
  `2^32` into the `int` range, and `%` truncates toward zero.
* A run of `main` that faults (division by zero, a failed allocation, an
  iterator range outside the vector `id`) is `none`.  Whether an allocation
  succeeds depends on the machine: `limit` is the largest request, in bytes,
  that the allocator serves.
* A run is observed through its calls of `set_hyperslab_from_samples`,
  `H5Dread` and `MPI_Barrier`; printing, timing and the simulated compute delay
  are left out, the HDF5 and MPI calls are taken to succeed (MPI provides
  `MPI_THREAD_MULTIPLE`, so the assertion of line 92 holds), and
  `MEMORY_PER_PROC` is taken to be unset.  The call of `parallel_dist` on
  line 220 is left out as well: its results are overwritten on line 258 before
  they are read.
* `std::shuffle` with the generator `g` is a parameter `shuf`: `shuf k l` is the
  result of the `k`-th call on `l`.
* `std::sort` on `vector<int>` is `List.insertionSort (· ≤ ·)`.
* `parallel_dist` is declared in `utils.h`; its definition follows the
  specification.
-/

namespace ReadCache

/-! ## Machine integers -/

/-- Largest value of a C++ `int`. -/
def INT_MAX : Int := 2147483647

/-- Smallest value of a C++ `int`. -/
def INT_MIN : Int := -2147483648

/-- Result of an `int` computation whose mathematical value is `x`:
defined only when `x` is representable. -/
def intOf (x : Int) : Option Int :=
  if INT_MIN ≤ x ∧ x ≤ INT_MAX then some x else none

/-- Reduction modulo `2^32` into the `int` range: the cast `(int)x` of a `long`
value, and the value the machine leaves in an `int` after an arithmetic
operation whose mathematical result is `x`. -/
def castInt (x : Int) : Int :=
  (x + 2147483648) % 4294967296 - 2147483648

/-- Conversion of an `int` to `hsize_t` (unsigned 64 bit): reduction modulo
`2^64`. -/
def toHsize (x : Int) : Nat :=
  (x % 18446744073709551616).toNat

/-- Conversion of an `hsize_t` value to `int`. -/
def hsizeToInt (x : Nat) : Int :=
  castInt (x : Int)

/-! ## msleep (lines 70-83) -/

/-- The `struct timespec` handed to `nanosleep`. -/
structure Timespec where
  tv_sec : Int
  tv_nsec : Int
  deriving DecidableEq, Repr

/-- The request `req` that `msleep` fills before calling `nanosleep`.
`/` on `long` truncates toward zero (`Int.tdiv`). -/
def msleep (miliseconds : Int) : Timespec :=
  if miliseconds > 999 then
    let tv_sec : Int := castInt (miliseconds.tdiv 1000)
    let tv_nsec : Int := (miliseconds - tv_sec * 1000) * 1000000
    { tv_sec := tv_sec, tv_nsec := tv_nsec }
  else
    { tv_sec := 0, tv_nsec := miliseconds * 1000000 }

/-! ## main: set-up (lines 171-216) -/

/-- The options and the communicator size that reach the sampler. -/
structure Config where
  nproc : Int
  batch_size : Int
  num_batches : Int
  epochs : Int
  rank_shift : Int
  shuffle : Bool
  deriving DecidableEq, Repr

/-- Lines 175-181: the number of elements of one sample,
`dim = (gdims[0] * ... * gdims[ndims-1]) / gdims[0]` in `hsize_t` arithmetic.
The division faults when the leading extent is `0`. -/
def sample_dim (gdims : List Nat) : Option Nat :=
  match gdims with
  | [] => none
  | n :: _ =>
    if n = 0 then none
    else some (gdims.foldl (fun d g => d * g % 18446744073709551616) 1 / n)

/-- Line 182: `num_images = batch_size * num_batches * nproc` in `int`
arithmetic, evaluated left to right. -/
def num_images_of (cfg : Config) : Option Int :=
  (intOf (cfg.batch_size * cfg.num_batches)).bind fun t => intOf (t * cfg.nproc)

/-- Lines 183-184: `if (num_images > gdims[0]) num_batches = gdims[0] /
batch_size / nproc;`.  The comparison and the divisions are carried out in
`hsize_t`, the quotient is converted back to `int`. -/
def adjust_num_batches (N : Nat) (cfg : Config) (num_images : Int) : Option Int :=
  if toHsize num_images > N then
    if toHsize cfg.batch_size = 0 ∨ toHsize cfg.nproc = 0 then none
    else some (hsizeToInt (N / toHsize cfg.batch_size / toHsize cfg.nproc))
  else some cfg.num_batches

/-- What the set-up leaves for the epoch loop: the dataset size `N = gdims[0]`,
`num_images`, the final `num_batches`, and the vector `id` (lines 213-216). -/
structure Setup where
  N : Nat
  num_images : Int
  num_batches : Int
  id : List Int
  deriving DecidableEq, Repr

/-- Lines 182-184 and 213-216 of `main` on a dataset of `N = gdims[0]`
samples. `id.resize(num_images)` aborts on a negative count; otherwise
`id[i] = i` for `i < num_images`. -/
def init_state (N : Nat) (cfg : Config) : Option Setup :=
  (num_images_of cfg).bind fun num_images =>
  (adjust_num_batches N cfg num_images).bind fun num_batches =>
  if num_images < 0 then none
  else some { N := N, num_images := num_images, num_batches := num_batches,
              id := (List.range num_images.toNat).map Int.ofNat }

/-- Largest value of `ptrdiff_t`: no object is larger. -/
def PTRDIFF_MAX : Nat := 9223372036854775807

/-- An allocation of `bytes` bytes on a machine whose allocator serves
requests of up to `limit` bytes; a request that is not served ends the run
(`std::bad_alloc`, `std::bad_array_new_length`). -/
def alloc (limit bytes : Nat) : Option Unit :=
  if bytes ≤ limit ∧ bytes ≤ PTRDIFF_MAX then some () else none

/-- Bytes requested by `id.resize(num_images)` (line 214), `sizeof(int) = 4`. -/
def id_bytes (num_images : Int) : Nat :=
  4 * num_images.toNat

/-- Bytes requested by `new float[dim * batch_size]` (line 223): the count is
an `hsize_t` product, `sizeof(float) = 4`. -/
def dat_bytes (dim : Nat) (batch_size : Int) : Nat :=
  4 * (dim * toHsize batch_size % 18446744073709551616)

/-- Lines 171-223 of `main`: the sample size, `num_images`, the final
`num_batches`, the vector `id` and the batch buffer `dat`. -/
def setup (limit : Nat) (gdims : List Nat) (cfg : Config) : Option Setup :=
  gdims.head?.bind fun N =>
  (sample_dim gdims).bind fun dim =>
  (init_state N cfg).bind fun s =>
  (alloc limit (id_bytes s.num_images)).bind fun _ =>
  (alloc limit (dat_bytes dim cfg.batch_size)).bind fun _ =>
  some s

/-! ## main: the epoch loop (lines 252-295) -/

/-- Modelled from the spec: `parallel_dist` is defined in `utils.h`, which is
missing from the sources. Section 4.2 of the specification gives
`count = floor(N/P)` for every worker and `offset = w × count`.  The result is
the pair `(ns_loc, fs_loc)`. -/
def parallel_dist (n P w : Int) : Int × Int :=
  (Int.fdiv n P, w * Int.fdiv n P)

/-- Line 258: the rank handed to `parallel_dist`,
`(rank + e * rank_shift) % nproc`.  The product and the sum are `int`
operations (`castInt`), and `%` on `int` truncates toward zero
(`Int.tmod`). -/
def effective_id (rank e rank_shift nproc : Int) : Int :=
  (castInt (rank + castInt (e * rank_shift))).tmod nproc

/-- The range constructor `vector<int>(id.begin() + lo, id.begin() + hi)`:
defined only for an iterator range inside `id`. -/
def slice (id : List Int) (lo hi : Int) : Option (List Int) :=
  if 0 ≤ lo ∧ lo ≤ hi ∧ hi ≤ (id.length : Int) then
    some ((id.drop lo.toNat).take (hi - lo).toNat)
  else none

/-- Lines 267-269: the vector `b` of batch `nb`, copied from
`id[fs_loc + nb*batch_size .. fs_loc + (nb+1)*batch_size)` and sorted. -/
def batch (id : List Int) (fs_loc nb batch_size : Int) : Option (List Int) :=
  (slice id (fs_loc + nb * batch_size) (fs_loc + (nb + 1) * batch_size)).map
    (List.insertionSort (· ≤ ·))

/-- Lines 261-287: `for (nb = 0; nb < num_batches; nb++)`, as the list of the
vectors `b`; the first argument counts the iterations left. -/
def batch_loop (id : List Int) (fs_loc batch_size : Int) :
    Nat → Int → Option (List (List Int))
  | 0, _ => some []
  | k + 1, nb =>
    (batch id fs_loc nb batch_size).bind fun b =>
    (batch_loop id fs_loc batch_size k (nb + 1)).bind fun rest =>
    some (b :: rest)

/-- The batches of epoch `e` on worker `rank`, for the current contents of
`id` (lines 258-269). -/
def epoch_batches (cfg : Config) (s : Setup) (id : List Int) (rank e : Int) :
    Option (List (List Int)) :=
  batch_loop id
    (parallel_dist s.num_images cfg.nproc
      (effective_id rank e cfg.rank_shift cfg.nproc)).2
    cfg.batch_size s.num_batches.toNat 0

/-- What a worker does that the outside can observe. -/
inductive Event
  /-- Call `set_hyperslab_from_samples(&b[0], batch_size, &fspace)` (line 272). -/
  | select (b : List Int)
  /-- Call of `H5Dread` on the selection (line 275). -/
  | read
  /-- Call of `MPI_Barrier` (lines 294 and 310). -/
  | barrier
  deriving DecidableEq, Repr

/-- The selection and the read of every batch, in order. -/
def batch_events : List (List Int) → List Event
  | [] => []
  | b :: bs => Event.select b :: Event.read :: batch_events bs

/-- One epoch: its batches, then the barrier. -/
def epoch (cfg : Config) (s : Setup) (id : List Int) (rank e : Int) :
    Option (List Event) :=
  (epoch_batches cfg s id rank e).map fun bs => batch_events bs ++ [Event.barrier]

/-- Lines 252-295: `for (e = 0; e < epochs; e++)`.  The first argument counts
the epochs left, `calls` the calls of `std::shuffle` made so far. -/
def epoch_loop (shuf : Nat → List Int → List Int) (cfg : Config) (s : Setup)
    (rank : Int) : Nat → Int → Nat → List Int → Option (List Event)
  | 0, _, _, _ => some []
  | k + 1, e, calls, id =>
    let id1 := if cfg.shuffle then shuf calls id else id
    let calls1 := if cfg.shuffle then calls + 1 else calls
    (epoch cfg s id1 rank e).bind fun ev =>
    (epoch_loop shuf cfg s rank k (e + 1) calls1 id1).bind fun rest =>
    some (ev ++ rest)

/-- The run of `main` on worker `rank`: set-up, the shuffle of lines 237-238,
the epoch loop, and the `MPI_Barrier` of line 310. -/
def main (limit : Nat) (shuf : Nat → List Int → List Int) (gdims : List Nat)
    (cfg : Config) (rank : Int) : Option (List Event) :=
  (setup limit gdims cfg).bind fun s =>
  let id0 := if cfg.shuffle then shuf 0 s.id else s.id
  let calls0 := if cfg.shuffle then 1 else 0
  (epoch_loop shuf cfg s rank cfg.epochs.toNat 0 calls0 id0).map fun evs =>
    evs ++ [Event.barrier]

/-- The sample indices selected in a run. -/
def selected : List Event → List Int
  | [] => []
  | Event.select b :: evs => b ++ selected evs
  | _ :: evs => selected evs


/-- C8: for `0 ≤ miliseconds < 2^31 * 1000` the request built by `msleep` has
`tv_sec ≥ 0`, `0 ≤ tv_nsec ≤ 999999999`, and represents exactly the requested
duration: `tv_sec * 10^9 + tv_nsec = miliseconds * 10^6`. -/
theorem msleep_timespec_exact (miliseconds : Int)
    (h0 : 0 ≤ miliseconds) (h1 : miliseconds < 2147483648 * 1000) :
    0 ≤ (msleep miliseconds).tv_sec ∧
    0 ≤ (msleep miliseconds).tv_nsec ∧
    (msleep miliseconds).tv_nsec ≤ 999999999 ∧
    (msleep miliseconds).tv_sec * 1000000000 + (msleep miliseconds).tv_nsec
      = miliseconds * 1000000 := by
  have hq : miliseconds.tdiv 1000 = miliseconds / 1000 :=
    Int.tdiv_eq_ediv h0 (by decide)
  unfold msleep castInt
  split
  · simp only [hq]
    omega
  · simp only
    omega

/-- C8 witness: a request of 2500 ms. -/
theorem msleep_timespec_exact_witness :
    (0 : Int) ≤ 2500 ∧ (2500 : Int) < 2147483648 * 1000 ∧
    (msleep 2500).tv_sec * 1000000000 + (msleep 2500).tv_nsec = 2500 * 1000000 :=
  ⟨by decide, by decide,
    (msleep_timespec_exact 2500 (by decide) (by decide)).2.2.2⟩


/-! ## Arithmetic of the set-up -/

theorem toHsize_natCast (n : Nat) (h : n ≤ 2147483647) : toHsize (n : Int) = n := by
  unfold toHsize
  omega

theorem hsizeToInt_small (n : Nat) (h : n ≤ 2147483647) : hsizeToInt n = (n : Int) := by
  unfold hsizeToInt castInt
  omega

theorem div_div_clamp (N b nb p : Nat) (hb : 1 ≤ b) (hp : 1 ≤ p)
    (h : N < b * nb * p) : N / b / p < nb ∧ b * (N / b / p) * p ≤ N := by
  rw [Nat.div_div_eq_div_mul]
  have hbp : 0 < b * p := Nat.mul_pos hb hp
  constructor
  · rw [Nat.div_lt_iff_lt_mul hbp]
    calc N < b * nb * p := h
      _ = nb * (b * p) := by ring
  · calc b * (N / (b * p)) * p = N / (b * p) * (b * p) := by ring
      _ ≤ N := Nat.div_mul_le_self N (b * p)

theorem factor_le_product (b nb p M : Nat) (hb : 1 ≤ b) (hp : 1 ≤ p)
    (hM : b * nb * p ≤ M) (hpos : 0 < b * nb * p) : b ≤ M ∧ p ≤ M := by
  have hnb : 1 ≤ nb := by
    rcases Nat.eq_zero_or_pos nb with h | h
    · subst h; simp at hpos
    · exact h
  constructor
  · calc b = b * 1 * 1 := by ring
      _ ≤ b * nb * p := Nat.mul_le_mul (Nat.mul_le_mul le_rfl hnb) hp
      _ ≤ M := hM
  · calc p = 1 * 1 * p := by ring
      _ ≤ b * nb * p := Nat.mul_le_mul (Nat.mul_le_mul hb hnb) le_rfl
      _ ≤ M := hM

/-- The adjustment of lines 183-184 on natural-number arguments. -/
theorem adjust_num_batches_nat (N b nb p : Nat) (ep r : Int) (sh : Bool)
    (hb : 1 ≤ b) (hp : 1 ≤ p) (hmax : b * nb * p ≤ 2147483647) :
    ∃ m : Nat,
      adjust_num_batches N ⟨p, b, nb, ep, r, sh⟩ ((b * nb * p : Nat) : Int) = some (m : Int) ∧
      m ≤ nb ∧ b * m * p ≤ N ∧ (b * nb * p ≤ N → m = nb) ∧
      (N < b * nb * p → m = N / b / p) := by
  unfold adjust_num_batches
  rw [toHsize_natCast _ hmax]
  by_cases hlt : N < b * nb * p
  · obtain ⟨hbM, hpM⟩ := factor_le_product b nb p _ hb hp hmax (by omega)
    obtain ⟨hq, hle⟩ := div_div_clamp N b nb p hb hp hlt
    have hqN : N / b / p ≤ N :=
      le_trans (Nat.div_le_self _ _) (Nat.div_le_self _ _)
    refine ⟨N / b / p, ?_, by omega, hle, by omega, fun _ => rfl⟩
    simp only [gt_iff_lt, hlt, if_true]
    rw [toHsize_natCast b (by omega), toHsize_natCast p (by omega)]
    rw [if_neg (by omega), hsizeToInt_small _ (by omega)]
  · refine ⟨nb, ?_, le_rfl, by omega, fun _ => rfl, fun h => absurd h hlt⟩
    simp only [gt_iff_lt, hlt, if_false]


theorem intOf_eq_some {x y : Int} :
    intOf x = some y ↔ (INT_MIN ≤ x ∧ x ≤ INT_MAX) ∧ x = y := by
  unfold intOf
  split <;> simp_all

/-- What lines 182-184 and 213-216 have computed, for `nproc ≥ 1`,
`batch_size ≥ 1` and a configured `num_batches ≥ 0`. -/
theorem init_state_facts {N : Nat} {cfg : Config} {s : Setup}
    (hs : init_state N cfg = some s)
    (hP : 1 ≤ cfg.nproc) (hB : 1 ≤ cfg.batch_size) (hnb : 0 ≤ cfg.num_batches) :
    s.N = N ∧
    s.num_images = cfg.batch_size * cfg.num_batches * cfg.nproc ∧
    s.num_images ≤ INT_MAX ∧
    0 ≤ s.num_batches ∧ s.num_batches ≤ cfg.num_batches ∧
    cfg.batch_size * s.num_batches * cfg.nproc ≤ (N : Int) ∧
    (cfg.batch_size * cfg.num_batches * cfg.nproc ≤ (N : Int) →
      s.num_batches = cfg.num_batches) ∧
    s.id = (List.range s.num_images.toNat).map Int.ofNat := by
  obtain ⟨p, b, nb, ep, r, sh⟩ := cfg
  simp only at hP hB hnb ⊢
  obtain ⟨b, rfl⟩ := Int.eq_ofNat_of_zero_le (show (0 : Int) ≤ b by omega)
  obtain ⟨nb, rfl⟩ := Int.eq_ofNat_of_zero_le hnb
  obtain ⟨p, rfl⟩ := Int.eq_ofNat_of_zero_le (show (0 : Int) ≤ p by omega)
  unfold init_state num_images_of at hs
  simp only [Option.bind_eq_some, intOf_eq_some] at hs
  obtain ⟨ni, ⟨t, ⟨_, ht⟩, hr, hni⟩, m, hm, hs⟩ := hs
  subst ht
  subst hni
  split at hs
  · exact absurd hs (by simp)
  · have hmax : b * nb * p ≤ 2147483647 := by
      have := hr.2
      unfold INT_MAX at this
      exact_mod_cast this
    obtain ⟨m1, hm1, h1, h2, h3, -⟩ :=
      adjust_num_batches_nat N b nb p ep r sh (by exact_mod_cast hB)
        (by exact_mod_cast hP) hmax
    have hcast : ((b * nb * p : Nat) : Int) = (b : Int) * nb * p := by push_cast; ring
    rw [hcast, hm] at hm1
    simp only [Option.some.injEq] at hm1 hs
    subst hm1
    subst hs
    dsimp only
    refine ⟨rfl, rfl, hr.2, by omega, by exact_mod_cast h1, by exact_mod_cast h2,
      ?_, rfl⟩
    intro h
    have : b * nb * p ≤ N := by exact_mod_cast h
    exact_mod_cast h3 this

/-- Lines 182-184 and 213-216 complete when `num_images` fits an `int`. -/
theorem init_state_isSome (N : Nat) (cfg : Config)
    (hP : 1 ≤ cfg.nproc) (hB : 1 ≤ cfg.batch_size) (hnb : 0 ≤ cfg.num_batches)
    (hmax : cfg.batch_size * cfg.num_batches * cfg.nproc ≤ INT_MAX) :
    ∃ s, init_state N cfg = some s := by
  obtain ⟨p, b, nb, ep, r, sh⟩ := cfg
  simp only at hP hB hnb hmax
  obtain ⟨b, rfl⟩ := Int.eq_ofNat_of_zero_le (show (0 : Int) ≤ b by omega)
  obtain ⟨nb, rfl⟩ := Int.eq_ofNat_of_zero_le hnb
  obtain ⟨p, rfl⟩ := Int.eq_ofNat_of_zero_le (show (0 : Int) ≤ p by omega)
  have hmaxN : b * nb * p ≤ 2147483647 := by
    unfold INT_MAX at hmax
    exact_mod_cast hmax
  have hb1 : 1 ≤ b := by exact_mod_cast hB
  have hp1 : 1 ≤ p := by exact_mod_cast hP
  obtain ⟨m1, hm1, -⟩ := adjust_num_batches_nat N b nb p ep r sh hb1 hp1 hmaxN
  have hcast : ((b * nb * p : Nat) : Int) = (b : Int) * nb * p := by push_cast; ring
  rw [hcast] at hm1
  have hbn : b * nb ≤ 2147483647 :=
    le_trans (Nat.le_mul_of_pos_right _ (by omega)) hmaxN
  have ht : intOf ((b : Int) * nb) = some ((b : Int) * nb) := by
    rw [intOf_eq_some]
    unfold INT_MIN INT_MAX
    have : (0 : Int) ≤ (b : Int) * nb := by positivity
    have : ((b * nb : Nat) : Int) ≤ 2147483647 := by exact_mod_cast hbn
    push_cast at this
    omega
  have hni : intOf ((b : Int) * nb * p) = some ((b : Int) * nb * p) := by
    rw [intOf_eq_some]
    unfold INT_MIN
    have : (0 : Int) ≤ (b : Int) * nb * p := by positivity
    omega
  have hnn : ¬ ((b : Int) * nb * p < 0) := by
    have : (0 : Int) ≤ (b : Int) * nb * p := by positivity
    omega
  unfold init_state num_images_of
  simp only [Option.some_bind, ht, hni, hm1, if_neg hnn]
  exact ⟨_, rfl⟩

/-! ## Slices, batches and the batch loop -/

theorem slice_eq_some {id : List Int} {lo hi : Int} {sl : List Int} :
    slice id lo hi = some sl ↔
      (0 ≤ lo ∧ lo ≤ hi ∧ hi ≤ (id.length : Int)) ∧
        (id.drop lo.toNat).take (hi - lo).toNat = sl := by
  unfold slice
  split <;> simp_all

theorem slice_length {id : List Int} {lo hi : Int} {sl : List Int}
    (h : slice id lo hi = some sl) : (sl.length : Int) = hi - lo := by
  obtain ⟨⟨h0, h1, h2⟩, rfl⟩ := slice_eq_some.mp h
  rw [List.length_take, List.length_drop]
  omega

theorem mem_slice {id : List Int} {lo hi : Int} {sl : List Int} {x : Int}
    (h : slice id lo hi = some sl) (hx : x ∈ sl) :
    ∃ (p : Nat) (hp : p < id.length), lo ≤ (p : Int) ∧ (p : Int) < hi ∧ id[p] = x := by
  obtain ⟨⟨h0, h1, h2⟩, rfl⟩ := slice_eq_some.mp h
  obtain ⟨i, hi1, hi2⟩ := List.mem_take_iff_getElem.mp hx
  rw [List.length_drop] at hi1
  rw [List.getElem_drop] at hi2
  exact ⟨lo.toNat + i, by omega, by omega, by omega, hi2⟩

theorem batch_eq_some {id : List Int} {fs_loc nb batch_size : Int} {b : List Int} :
    batch id fs_loc nb batch_size = some b ↔
      ∃ sl, slice id (fs_loc + nb * batch_size) (fs_loc + (nb + 1) * batch_size) = some sl ∧
        List.insertionSort (· ≤ ·) sl = b := by
  unfold batch
  simp [Option.map_eq_some']

theorem mem_batch {id : List Int} {fs_loc nb batch_size : Int} {b : List Int} {x : Int}
    (h : batch id fs_loc nb batch_size = some b) (hx : x ∈ b) :
    ∃ (p : Nat) (hp : p < id.length),
      fs_loc + nb * batch_size ≤ (p : Int) ∧ (p : Int) < fs_loc + (nb + 1) * batch_size ∧
        id[p] = x := by
  obtain ⟨sl, hsl, rfl⟩ := batch_eq_some.mp h
  exact mem_slice hsl ((List.perm_insertionSort _ sl).mem_iff.mp hx)

theorem batch_isSome {id : List Int} {fs_loc nb batch_size : Int}
    (h0 : 0 ≤ fs_loc + nb * batch_size) (h1 : 0 ≤ batch_size)
    (h2 : fs_loc + (nb + 1) * batch_size ≤ (id.length : Int)) :
    ∃ b, batch id fs_loc nb batch_size = some b := by
  have hle : fs_loc + nb * batch_size ≤ fs_loc + (nb + 1) * batch_size := by
    have : (nb + 1) * batch_size = nb * batch_size + batch_size := by ring
    omega
  refine ⟨_, batch_eq_some.mpr ⟨_, slice_eq_some.mpr ⟨⟨h0, hle, h2⟩, rfl⟩, rfl⟩⟩

theorem batch_loop_spec (id : List Int) (fs_loc batch_size : Int) :
    ∀ (k : Nat) (nb : Int) (bs : List (List Int)),
      batch_loop id fs_loc batch_size k nb = some bs →
        bs.length = k ∧
        ∀ (i : Nat) (h : i < bs.length),
          batch id fs_loc (nb + i) batch_size = some bs[i] := by
  intro k
  induction k with
  | zero =>
    intro nb bs h
    simp only [batch_loop, Option.some.injEq] at h
    subst h
    exact ⟨rfl, fun i hi => absurd hi (by simp)⟩
  | succ k ih =>
    intro nb bs h
    simp only [batch_loop, Option.bind_eq_some, Option.some.injEq] at h
    obtain ⟨b, hb, rest, hrest, rfl⟩ := h
    obtain ⟨hlen, hget⟩ := ih (nb + 1) rest hrest
    refine ⟨by simp [hlen], ?_⟩
    intro i hi
    cases i with
    | zero => simpa using hb
    | succ j =>
      have hj : j < rest.length := by simpa using hi
      have := hget j hj
      simp only [List.getElem_cons_succ]
      rw [← this]
      congr 1
      push_cast
      ring

theorem batch_loop_isSome (id : List Int) (fs_loc batch_size : Int) :
    ∀ (k : Nat) (nb : Int),
      (∀ i : Nat, i < k → ∃ b, batch id fs_loc (nb + i) batch_size = some b) →
        ∃ bs, batch_loop id fs_loc batch_size k nb = some bs := by
  intro k
  induction k with
  | zero => intro nb _; exact ⟨[], rfl⟩
  | succ k ih =>
    intro nb h
    obtain ⟨b, hb⟩ := h 0 (Nat.succ_pos k)
    obtain ⟨rest, hrest⟩ := ih (nb + 1) (fun i hi => by
      obtain ⟨b1, hb1⟩ := h (i + 1) (Nat.succ_lt_succ hi)
      refine ⟨b1, ?_⟩
      rw [← hb1]
      congr 1
      push_cast
      ring)
    simp only [Int.ofNat_zero, Nat.cast_zero, add_zero] at hb
    exact ⟨b :: rest, by simp [batch_loop, hb, hrest]⟩

/-! ## The rotated rank -/

theorem castInt_of_int {x : Int} (h0 : INT_MIN ≤ x) (h1 : x ≤ INT_MAX) : castInt x = x := by
  unfold castInt
  unfold INT_MIN at h0
  unfold INT_MAX at h1
  omega

theorem effective_id_eq_emod {rank e rank_shift nproc : Int}
    (hP : 1 ≤ nproc) (hw : 0 ≤ rank) (he : 0 ≤ e) (hr : 0 ≤ rank_shift)
    (hrot : rank + e * rank_shift ≤ INT_MAX) :
    effective_id rank e rank_shift nproc = (rank + e * rank_shift) % nproc := by
  unfold effective_id
  have h0 : 0 ≤ e * rank_shift := mul_nonneg he hr
  have hmin : INT_MIN = -2147483648 := rfl
  have h1 : castInt (e * rank_shift) = e * rank_shift :=
    castInt_of_int (by omega) (by omega)
  rw [h1]
  have h2 : castInt (rank + e * rank_shift) = rank + e * rank_shift :=
    castInt_of_int (by omega) hrot
  rw [h2]
  exact Int.tmod_eq_emod (by omega) (by omega)

theorem effective_id_range {rank e rank_shift nproc : Int}
    (hP : 1 ≤ nproc) (hw : 0 ≤ rank) (he : 0 ≤ e) (hr : 0 ≤ rank_shift)
    (hrot : rank + e * rank_shift ≤ INT_MAX) :
    0 ≤ effective_id rank e rank_shift nproc ∧
      effective_id rank e rank_shift nproc < nproc := by
  rw [effective_id_eq_emod hP hw he hr hrot]
  exact ⟨Int.emod_nonneg _ (by omega), Int.emod_lt_of_pos _ (by omega)⟩

theorem effective_id_inj {w1 w2 e rank_shift nproc : Int}
    (hP : 1 ≤ nproc) (h1 : 0 ≤ w1 ∧ w1 < nproc) (h2 : 0 ≤ w2 ∧ w2 < nproc)
    (he : 0 ≤ e) (hr : 0 ≤ rank_shift)
    (hrot1 : w1 + e * rank_shift ≤ INT_MAX) (hrot2 : w2 + e * rank_shift ≤ INT_MAX)
    (h : effective_id w1 e rank_shift nproc = effective_id w2 e rank_shift nproc) :
    w1 = w2 := by
  rw [effective_id_eq_emod hP h1.1 he hr hrot1, effective_id_eq_emod hP h2.1 he hr hrot2,
    Int.emod_eq_emod_iff_emod_sub_eq_zero] at h
  have hdvd : nproc ∣ w1 - w2 := by
    have := Int.dvd_of_emod_eq_zero h
    have heq : w1 + e * rank_shift - (w2 + e * rank_shift) = w1 - w2 := by ring
    rwa [heq] at this
  have habs : |w1 - w2| < nproc := by
    rw [abs_lt]
    constructor <;> omega
  have := Int.eq_zero_of_abs_lt_dvd hdvd habs
  omega

theorem parallel_dist_eq (c P w : Int) (hP : 1 ≤ P) :
    parallel_dist (c * P) P w = (c, w * c) := by
  unfold parallel_dist
  rw [Int.fdiv_eq_ediv _ (by omega), Int.mul_ediv_cancel _ (by omega)]


/-! ## The shard window of an epoch -/

/-- Batch `nb` of the shard with rotated rank `w` lies inside the window
`[w * c, w * c + c)` with `c = batch_size * num_batches`, and the window lies
inside `[0, c * nproc)`. -/
theorem window_bounds {B nbcfg P w m nb : Int} (hB : 1 ≤ B)
    (hw : 0 ≤ w ∧ w < P) (hm : m ≤ nbcfg) (hnb : 0 ≤ nb ∧ nb < m) :
    0 ≤ w * (B * nbcfg) ∧
    w * (B * nbcfg) ≤ w * (B * nbcfg) + nb * B ∧
    w * (B * nbcfg) + (nb + 1) * B ≤ w * (B * nbcfg) + B * nbcfg ∧
    w * (B * nbcfg) + B * nbcfg ≤ B * nbcfg * P := by
  have hc : 0 ≤ B * nbcfg := mul_nonneg (by omega) (by omega)
  have h1 : 0 ≤ w * (B * nbcfg) := mul_nonneg hw.1 hc
  have h2 : 0 ≤ nb * B := mul_nonneg hnb.1 (by omega)
  have h3 : (nb + 1) * B ≤ nbcfg * B :=
    mul_le_mul_of_nonneg_right (by omega) (by omega)
  have h4 : (w + 1) * (B * nbcfg) ≤ P * (B * nbcfg) :=
    mul_le_mul_of_nonneg_right (by omega) hc
  refine ⟨h1, by omega, ?_, ?_⟩
  · have : nbcfg * B = B * nbcfg := mul_comm _ _
    omega
  · have e1 : (w + 1) * (B * nbcfg) = w * (B * nbcfg) + B * nbcfg := by ring
    have e2 : P * (B * nbcfg) = B * nbcfg * P := by ring
    omega

/-- The shard handed back by `parallel_dist` in epoch `e`. -/
theorem epoch_shard {N : Nat} {cfg : Config} {s : Setup}
    (hs : init_state N cfg = some s)
    (hP : 1 ≤ cfg.nproc) (hB : 1 ≤ cfg.batch_size) (hnb : 0 ≤ cfg.num_batches)
    (w : Int) :
    parallel_dist s.num_images cfg.nproc w =
      (cfg.batch_size * cfg.num_batches, w * (cfg.batch_size * cfg.num_batches)) := by
  obtain ⟨-, hni, -⟩ := init_state_facts hs hP hB hnb
  rw [hni]
  exact parallel_dist_eq _ _ _ hP

/-- Every element of every batch of an epoch sits in `id` at a position inside
the shard window of the rotated rank. -/
theorem batch_position {N : Nat} {cfg : Config} {s : Setup}
    {id : List Int} {rank e : Int} {bs : List (List Int)}
    (hs : init_state N cfg = some s)
    (hP : 1 ≤ cfg.nproc) (hB : 1 ≤ cfg.batch_size) (hnb : 0 ≤ cfg.num_batches)
    (hw : 0 ≤ rank ∧ rank < cfg.nproc) (he : 0 ≤ e) (hr : 0 ≤ cfg.rank_shift)
    (hrot : rank + e * cfg.rank_shift ≤ INT_MAX)
    (hbs : epoch_batches cfg s id rank e = some bs)
    {b : List Int} (hb : b ∈ bs) {x : Int} (hx : x ∈ b) :
    ∃ (p : Nat) (hp : p < id.length),
      effective_id rank e cfg.rank_shift cfg.nproc * (cfg.batch_size * cfg.num_batches)
          ≤ (p : Int) ∧
      (p : Int) < (effective_id rank e cfg.rank_shift cfg.nproc + 1) *
          (cfg.batch_size * cfg.num_batches) ∧
      id[p] = x := by
  obtain ⟨-, -, -, hm0, hm, -⟩ := init_state_facts hs hP hB hnb
  unfold epoch_batches at hbs
  rw [epoch_shard hs hP hB hnb] at hbs
  obtain ⟨hlen, hget⟩ := batch_loop_spec _ _ _ _ _ _ hbs
  obtain ⟨i, hi, rfl⟩ := List.mem_iff_getElem.mp hb
  have hbi := hget i hi
  rw [zero_add] at hbi
  obtain ⟨p, hp, hlo, hhi, hpx⟩ := mem_batch hbi hx
  have hwr := effective_id_range hP hw.1 he hr hrot
  have hi' : (0 : Int) ≤ (i : Int) ∧ (i : Int) < s.num_batches := by omega
  obtain ⟨-, w1, w2, -⟩ := window_bounds hB hwr hm hi'
  refine ⟨p, hp, by omega, ?_, hpx⟩
  have e1 : (effective_id rank e cfg.rank_shift cfg.nproc + 1) *
      (cfg.batch_size * cfg.num_batches) =
      effective_id rank e cfg.rank_shift cfg.nproc * (cfg.batch_size * cfg.num_batches) +
      cfg.batch_size * cfg.num_batches := by ring
  omega

/-- When the configured batches fit the dataset
(`batch_size * num_batches * nproc ≤ N`), every index of every batch of an
epoch is in `[0, N)`, for every ordering that permutes `id`. -/
theorem batches_within_dataset_of_fit {N : Nat} {cfg : Config} {s : Setup}
    {id : List Int} {rank e : Int} {bs : List (List Int)}
    (hs : init_state N cfg = some s)
    (hP : 1 ≤ cfg.nproc) (hB : 1 ≤ cfg.batch_size) (hnb : 0 ≤ cfg.num_batches)
    (hfit : cfg.batch_size * cfg.num_batches * cfg.nproc ≤ (N : Int))
    (hperm : id.Perm s.id)
    (hbs : epoch_batches cfg s id rank e = some bs) :
    ∀ b ∈ bs, ∀ x ∈ b, 0 ≤ x ∧ x < (N : Int) := by
  intro b hb x hx
  obtain ⟨-, hni, -, -, -, -, -, hid⟩ := init_state_facts hs hP hB hnb
  unfold epoch_batches at hbs
  obtain ⟨-, hget⟩ := batch_loop_spec _ _ _ _ _ _ hbs
  obtain ⟨i, hi, rfl⟩ := List.mem_iff_getElem.mp hb
  obtain ⟨p, hp, -, -, hpx⟩ := mem_batch (hget i hi) hx
  have hmem : x ∈ s.id := hperm.mem_iff.mp (hpx ▸ List.getElem_mem hp)
  rw [hid] at hmem
  obtain ⟨k, hk, rfl⟩ := List.mem_map.mp hmem
  rw [List.mem_range] at hk
  have : Int.ofNat k = (k : Int) := rfl
  omega

/-- With the slices inside `id`, the batch loop of an epoch runs to its end. -/
theorem epoch_batches_isSome {N : Nat} {cfg : Config} {s : Setup}
    (id : List Int) (rank e : Int)
    (hs : init_state N cfg = some s)
    (hP : 1 ≤ cfg.nproc) (hB : 1 ≤ cfg.batch_size) (hnb : 0 ≤ cfg.num_batches)
    (hw : 0 ≤ rank ∧ rank < cfg.nproc) (he : 0 ≤ e) (hr : 0 ≤ cfg.rank_shift)
    (hrot : rank + e * cfg.rank_shift ≤ INT_MAX)
    (hid : (id.length : Int) = s.num_images) :
    ∃ bs, epoch_batches cfg s id rank e = some bs := by
  obtain ⟨-, hni, -, hm0, hm, -⟩ := init_state_facts hs hP hB hnb
  unfold epoch_batches
  rw [epoch_shard hs hP hB hnb]
  apply batch_loop_isSome
  intro i hi
  have hwr := effective_id_range hP hw.1 he hr hrot
  have hi' : (0 : Int) ≤ (i : Int) ∧ (i : Int) < s.num_batches := by omega
  obtain ⟨w0, w1, w2, w3⟩ := window_bounds hB hwr hm hi'
  rw [zero_add]
  exact batch_isSome (by omega) (by omega) (by omega)

/-! ## The claims about the set-up and the rotated rank -/

/-- C9: for every dataset size `N ≥ 0`, `nproc ≥ 1`, `batch_size ≥ 1` and
configured `num_batches ≥ 0` with `batch_size * num_batches * nproc` within
the `int` range, lines 182-184 compute `num_images` and a final `num_batches`
with `batch_size * num_batches * nproc ≤ N`. -/
theorem adjusted_total_within_dataset (N : Nat) (cfg : Config)
    (hP : 1 ≤ cfg.nproc) (hB : 1 ≤ cfg.batch_size) (hnb : 0 ≤ cfg.num_batches)
    (hmax : cfg.batch_size * cfg.num_batches * cfg.nproc ≤ INT_MAX) :
    ∃ num_images num_batches,
      num_images_of cfg = some num_images ∧
      adjust_num_batches N cfg num_images = some num_batches ∧
      cfg.batch_size * num_batches * cfg.nproc ≤ (N : Int) := by
  obtain ⟨p, b, nb, ep, r, sh⟩ := cfg
  simp only at hP hB hnb hmax ⊢
  obtain ⟨b, rfl⟩ := Int.eq_ofNat_of_zero_le (show (0 : Int) ≤ b by omega)
  obtain ⟨nb, rfl⟩ := Int.eq_ofNat_of_zero_le hnb
  obtain ⟨p, rfl⟩ := Int.eq_ofNat_of_zero_le (show (0 : Int) ≤ p by omega)
  have hmaxN : b * nb * p ≤ 2147483647 := by
    unfold INT_MAX at hmax
    exact_mod_cast hmax
  have hb1 : 1 ≤ b := by exact_mod_cast hB
  have hp1 : 1 ≤ p := by exact_mod_cast hP
  obtain ⟨m, hm, -, hle, -⟩ := adjust_num_batches_nat N b nb p ep r sh hb1 hp1 hmaxN
  have hcast : ((b * nb * p : Nat) : Int) = (b : Int) * nb * p := by push_cast; ring
  rw [hcast] at hm
  have hbn : b * nb ≤ 2147483647 :=
    le_trans (Nat.le_mul_of_pos_right _ (by omega)) hmaxN
  have h0 : (0 : Int) ≤ (b : Int) * nb := by positivity
  have h1 : (0 : Int) ≤ (b : Int) * nb * p := by positivity
  have hbnI : (b : Int) * nb ≤ 2147483647 := by exact_mod_cast hbn
  have ht : intOf ((b : Int) * nb) = some ((b : Int) * nb) := by
    rw [intOf_eq_some]
    unfold INT_MIN INT_MAX
    omega
  have hni : intOf ((b : Int) * nb * p) = some ((b : Int) * nb * p) := by
    rw [intOf_eq_some]
    unfold INT_MIN
    omega
  refine ⟨(b : Int) * nb * p, m, ?_, hm, by exact_mod_cast hle⟩
  unfold num_images_of
  simp only [ht, Option.some_bind, hni]

/-- C9 witness: `N = 10`, two workers, batches of 2, 16 batches configured. -/
theorem adjusted_total_within_dataset_witness :
    ∃ num_images num_batches,
      num_images_of ⟨2, 2, 16, 1, 0, false⟩ = some num_images ∧
      adjust_num_batches 10 ⟨2, 2, 16, 1, 0, false⟩ num_images = some num_batches ∧
      (2 : Int) * num_batches * 2 ≤ ((10 : Nat) : Int) :=
  adjusted_total_within_dataset 10 ⟨2, 2, 16, 1, 0, false⟩
    (by decide) (by decide) (by decide) (by decide)

/-- C3: with `nproc = 4` and `rank_shift = -1`, worker 0 in epoch 1 hands
`parallel_dist` the rank `(0 + 1 * (-1)) % 4 = -1`, outside `[0, 4)`; with
`rank_shift = 1` workers 0 and 2 get `0,1,2,3` and `2,3,0,1` over epochs
`0..3`. -/
theorem effective_id_negative_shift :
    effective_id 0 1 (-1) 4 = -1 ∧
    ¬ (0 ≤ effective_id 0 1 (-1) 4 ∧ effective_id 0 1 (-1) 4 < 4) ∧
    [effective_id 0 0 1 4, effective_id 0 1 1 4, effective_id 0 2 1 4,
      effective_id 0 3 1 4] = [0, 1, 2, 3] ∧
    [effective_id 2 0 1 4, effective_id 2 1 1 4, effective_id 2 2 1 4,
      effective_id 2 3 1 4] = [2, 3, 0, 1] := by
  decide

/-- C1: on a dataset of `N = 10` samples with 2 workers, `batch_size = 2`,
16 batches configured and no shuffle, worker 1 hands
`set_hyperslab_from_samples` the batches `[32, 33]` and `[34, 35]`: indices
outside `[0, 10)`. -/
theorem main_selects_beyond_dataset :
    main 1073741824 (fun _ l => l) [10] ⟨2, 2, 16, 1, 0, false⟩ 1 =
      some [Event.select [32, 33], Event.read, Event.select [34, 35], Event.read,
        Event.barrier, Event.barrier] ∧
    (main 1073741824 (fun _ l => l) [10] ⟨2, 2, 16, 1, 0, false⟩ 1).map selected =
      some [32, 33, 34, 35] ∧
    ∀ x ∈ ([32, 33, 34, 35] : List Int), ¬ (x < ((10 : Nat) : Int)) := by
  decide

/-! ## The claims about the batches of an epoch -/

/-- C10, as stated, fails: with `N = 7`, 7 workers, `batch_size = 1`,
`num_batches = 1` and `rank_shift = 2000000000`, the `int` product
`2 * 2000000000` of epoch 2 leaves the `int` range and worker 0 hands
`parallel_dist` the rank `-1`; the slice of batch 0 starts at `-1`, outside
`id`, and the range constructor is not defined. -/
theorem rotation_overflow_slice_outside_id :
    (init_state 7 ⟨7, 1, 1, 3, 2000000000, false⟩).map (fun s =>
      (s.num_batches, effective_id 0 2 2000000000 7,
        (parallel_dist s.num_images 7 (effective_id 0 2 2000000000 7)).2 + 0 * 1,
        epoch_batches ⟨7, 1, 1, 3, 2000000000, false⟩ s s.id 0 2))
      = some (1, -1, -1, none) := by
  decide

/-- C10, amended: for `nproc ≥ 1`, `0 ≤ rank < nproc`, `e ≥ 0`,
`rank_shift ≥ 0`, `batch_size ≥ 1` and configured `num_batches ≥ 0`, with
`batch_size * num_batches * nproc` and `rank + e * rank_shift` within the
`int` range, the vector `id` has `num_images` entries and, for every `nb`
below the final `num_batches`, the slice
`[fs_loc + nb*batch_size, fs_loc + (nb+1)*batch_size)` lies inside
`[0, num_images)`: the range constructor is defined on every ordering of that
length and yields `batch_size` entries. -/
theorem slice_inside_id (N : Nat) (cfg : Config) (rank e nb : Int)
    (hP : 1 ≤ cfg.nproc) (hB : 1 ≤ cfg.batch_size) (hnb : 0 ≤ cfg.num_batches)
    (hmax : cfg.batch_size * cfg.num_batches * cfg.nproc ≤ INT_MAX)
    (hw : 0 ≤ rank ∧ rank < cfg.nproc) (he : 0 ≤ e) (hr : 0 ≤ cfg.rank_shift)
    (hrot : rank + e * cfg.rank_shift ≤ INT_MAX) (h0 : 0 ≤ nb) :
    ∃ s, init_state N cfg = some s ∧
      (s.id.length : Int) = s.num_images ∧
      (nb < s.num_batches →
        0 ≤ (parallel_dist s.num_images cfg.nproc
            (effective_id rank e cfg.rank_shift cfg.nproc)).2 + nb * cfg.batch_size ∧
        (parallel_dist s.num_images cfg.nproc
            (effective_id rank e cfg.rank_shift cfg.nproc)).2 + (nb + 1) * cfg.batch_size
          ≤ s.num_images ∧
        ∀ id : List Int, id.length = s.id.length →
          ∃ sl, slice id
              ((parallel_dist s.num_images cfg.nproc
                (effective_id rank e cfg.rank_shift cfg.nproc)).2 + nb * cfg.batch_size)
              ((parallel_dist s.num_images cfg.nproc
                (effective_id rank e cfg.rank_shift cfg.nproc)).2 +
                  (nb + 1) * cfg.batch_size)
              = some sl ∧ (sl.length : Int) = cfg.batch_size) := by
  obtain ⟨s, hs⟩ := init_state_isSome N cfg hP hB hnb hmax
  obtain ⟨-, hni, -, hm0, hm, -, -, hid⟩ := init_state_facts hs hP hB hnb
  have hwr := effective_id_range hP hw.1 he hr hrot
  have hc : 0 ≤ cfg.batch_size * cfg.num_batches := mul_nonneg (by omega) hnb
  have hnn : 0 ≤ cfg.batch_size * cfg.num_batches * cfg.nproc := mul_nonneg hc (by omega)
  have hlen : (s.id.length : Int) = s.num_images := by
    rw [hid, List.length_map, List.length_range]
    omega
  refine ⟨s, hs, hlen, ?_⟩
  intro hlt
  obtain ⟨w0, w1, w2, w3⟩ := window_bounds hB hwr hm ⟨h0, hlt⟩
  rw [epoch_shard hs hP hB hnb]
  refine ⟨by simp only; omega, by simp only; omega, ?_⟩
  intro id hidlen
  simp only
  have hstep : (nb + 1) * cfg.batch_size = nb * cfg.batch_size + cfg.batch_size := by ring
  have hsl : ∃ sl, slice id
      (effective_id rank e cfg.rank_shift cfg.nproc * (cfg.batch_size * cfg.num_batches)
        + nb * cfg.batch_size)
      (effective_id rank e cfg.rank_shift cfg.nproc * (cfg.batch_size * cfg.num_batches)
        + (nb + 1) * cfg.batch_size) = some sl :=
    ⟨_, slice_eq_some.mpr ⟨⟨by omega, by omega, by omega⟩, rfl⟩⟩
  obtain ⟨sl, h⟩ := hsl
  refine ⟨sl, h, ?_⟩
  have := slice_length h
  omega

/-- C10 witness: `N = 8`, two workers, two batches of 2, worker 1, epoch 3,
`rank_shift = 1`, batch 1. -/
theorem slice_inside_id_witness :
    init_state 8 ⟨2, 2, 2, 4, 1, false⟩ = some ⟨8, 8, 2, [0, 1, 2, 3, 4, 5, 6, 7]⟩ ∧
    (([0, 1, 2, 3, 4, 5, 6, 7] : List Int).length : Int) = 8 ∧
    0 ≤ (parallel_dist 8 2 (effective_id 1 3 1 2)).2 + 1 * 2 ∧
    (parallel_dist 8 2 (effective_id 1 3 1 2)).2 + (1 + 1) * 2 ≤ 8 ∧
    ∀ id : List Int, id.length = ([0, 1, 2, 3, 4, 5, 6, 7] : List Int).length →
      ∃ sl, slice id ((parallel_dist 8 2 (effective_id 1 3 1 2)).2 + 1 * 2)
          ((parallel_dist 8 2 (effective_id 1 3 1 2)).2 + (1 + 1) * 2) = some sl ∧
        (sl.length : Int) = 2 := by
  obtain ⟨s, hs, hlen, h⟩ := slice_inside_id 8 ⟨2, 2, 2, 4, 1, false⟩ 1 3 1
    (by decide) (by decide) (by decide) (by decide) (by decide) (by decide)
    (by decide) (by decide) (by decide)
  have hs1 : init_state 8 ⟨2, 2, 2, 4, 1, false⟩ = some ⟨8, 8, 2, [0, 1, 2, 3, 4, 5, 6, 7]⟩ := by
    decide
  have hs2 : s = ⟨8, 8, 2, [0, 1, 2, 3, 4, 5, 6, 7]⟩ := Option.some.inj (hs.symm.trans hs1)
  subst hs2
  exact ⟨hs1, hlen, h (by decide)⟩

/-- Each batch of an epoch is the sorted copy of its slice of `id`. -/
theorem epoch_batches_sorted (cfg : Config) (s : Setup) (id : List Int)
    (rank e : Int) (bs : List (List Int))
    (hbs : epoch_batches cfg s id rank e = some bs) :
    ∀ (nb : Nat) (h : nb < bs.length),
      List.Sorted (· ≤ ·) bs[nb] ∧
      ∃ sl, slice id
          ((parallel_dist s.num_images cfg.nproc
            (effective_id rank e cfg.rank_shift cfg.nproc)).2 + nb * cfg.batch_size)
          ((parallel_dist s.num_images cfg.nproc
            (effective_id rank e cfg.rank_shift cfg.nproc)).2 + (nb + 1) * cfg.batch_size)
          = some sl ∧
        List.Perm bs[nb] sl ∧ (bs[nb].length : Int) = cfg.batch_size := by
  intro nb h
  unfold epoch_batches at hbs
  obtain ⟨-, hget⟩ := batch_loop_spec _ _ _ _ _ _ hbs
  have hb := hget nb h
  rw [zero_add] at hb
  obtain ⟨sl, hsl, hsort⟩ := batch_eq_some.mp hb
  rw [← hsort]
  refine ⟨List.sorted_insertionSort _ sl, sl, hsl, List.perm_insertionSort _ sl, ?_⟩
  rw [List.length_insertionSort]
  have := slice_length hsl
  have hstep : ((nb : Int) + 1) * cfg.batch_size = nb * cfg.batch_size + cfg.batch_size := by
    ring
  omega

/-- C4: in every epoch and for every ordering `id` (shuffled or not), the
vector `b` of batch `nb` handed to `set_hyperslab_from_samples` is sorted in
ascending order, is a permutation of the slice
`id[fs_loc + nb*batch_size .. fs_loc + (nb+1)*batch_size)` it was copied from,
and has `batch_size` entries. -/
theorem batch_sorted_perm_of_slice (cfg : Config) (s : Setup) (id : List Int)
    (rank e : Int) (bs : List (List Int))
    (hbs : epoch_batches cfg s id rank e = some bs) :
    ∀ (nb : Nat) (h : nb < bs.length),
      List.Sorted (· ≤ ·) bs[nb] ∧
      ∃ sl, slice id
          ((parallel_dist s.num_images cfg.nproc
            (effective_id rank e cfg.rank_shift cfg.nproc)).2 + nb * cfg.batch_size)
          ((parallel_dist s.num_images cfg.nproc
            (effective_id rank e cfg.rank_shift cfg.nproc)).2 + (nb + 1) * cfg.batch_size)
          = some sl ∧
        List.Perm bs[nb] sl ∧ (bs[nb].length : Int) = cfg.batch_size :=
  epoch_batches_sorted cfg s id rank e bs hbs

/-- C4 witness: a shuffled ordering of 8 indices, worker 1 of 2, batches of
2; the first batch `[0, 6]` comes from the slice `[6, 0]`. -/
theorem batch_sorted_perm_of_slice_witness :
    List.Sorted (· ≤ ·) ([0, 6] : List Int) ∧
      ∃ sl, slice [7, 3, 5, 1, 6, 0, 4, 2]
          ((parallel_dist 8 2 (effective_id 1 0 1 2)).2 + ((0 : Nat) : Int) * 2)
          ((parallel_dist 8 2 (effective_id 1 0 1 2)).2 + (((0 : Nat) : Int) + 1) * 2)
            = some sl ∧
        List.Perm ([0, 6] : List Int) sl ∧ ((([0, 6] : List Int)).length : Int) = 2 :=
  batch_sorted_perm_of_slice ⟨2, 2, 2, 4, 1, true⟩ ⟨8, 8, 2, [0, 1, 2, 3, 4, 5, 6, 7]⟩
    [7, 3, 5, 1, 6, 0, 4, 2] 1 0 [[0, 6], [2, 4]] (by decide) 0 (by decide)

/-- C2, as stated, fails: with `N = 7`, 7 workers, `batch_size = 1`,
`num_batches = 1` and `rank_shift = 2147483646`, in epoch 1 the `int` sum
`4 + 2147483646` of worker 4 leaves the `int` range, workers 0 and 4 both hand
`parallel_dist` the rank 0, and sample index 0 is in a batch of both. -/
theorem rotation_overflow_shared_index :
    effective_id 0 1 2147483646 7 = 0 ∧ effective_id 4 1 2147483646 7 = 0 ∧
    (init_state 7 ⟨7, 1, 1, 2, 2147483646, false⟩).map (fun s =>
      (epoch_batches ⟨7, 1, 1, 2, 2147483646, false⟩ s s.id 0 1,
        epoch_batches ⟨7, 1, 1, 2, 2147483646, false⟩ s s.id 4 1))
      = some (some [[0]], some [[0]]) := by
  decide

/-- C2, amended: for a fixed epoch `e ≥ 0`, `nproc ≥ 1`, `rank_shift ≥ 0`,
`batch_size ≥ 1`, `num_batches ≥ 0` with `batch_size * num_batches * nproc`
within the `int` range, a duplicate-free ordering `id` of `num_images` entries
shared by all workers, and two distinct workers `w1 ≠ w2` in `[0, nproc)`
with `w1 + e * rank_shift` and `w2 + e * rank_shift` within the `int` range,
both workers complete their batch loop and no sample index lies both in a
batch of `w1` and in a batch of `w2`. -/
theorem worker_batches_disjoint (N : Nat) (cfg : Config) (id : List Int) (w1 w2 e : Int)
    (hP : 1 ≤ cfg.nproc) (hB : 1 ≤ cfg.batch_size) (hnb : 0 ≤ cfg.num_batches)
    (hmax : cfg.batch_size * cfg.num_batches * cfg.nproc ≤ INT_MAX)
    (hr : 0 ≤ cfg.rank_shift) (he : 0 ≤ e)
    (hrot1 : w1 + e * cfg.rank_shift ≤ INT_MAX)
    (hrot2 : w2 + e * cfg.rank_shift ≤ INT_MAX)
    (hnodup : id.Nodup)
    (hlen : (id.length : Int) = cfg.batch_size * cfg.num_batches * cfg.nproc)
    (h1 : 0 ≤ w1 ∧ w1 < cfg.nproc) (h2 : 0 ≤ w2 ∧ w2 < cfg.nproc) (hne : w1 ≠ w2) :
    ∃ s bs1 bs2,
      init_state N cfg = some s ∧
      epoch_batches cfg s id w1 e = some bs1 ∧
      epoch_batches cfg s id w2 e = some bs2 ∧
      ∀ b1 ∈ bs1, ∀ b2 ∈ bs2, ∀ x ∈ b1, x ∉ b2 := by
  obtain ⟨s, hs⟩ := init_state_isSome N cfg hP hB hnb hmax
  obtain ⟨-, hni, -⟩ := init_state_facts hs hP hB hnb
  have hlen1 : (id.length : Int) = s.num_images := by rw [hni]; exact hlen
  obtain ⟨bs1, hbs1⟩ := epoch_batches_isSome id w1 e hs hP hB hnb h1 he hr hrot1 hlen1
  obtain ⟨bs2, hbs2⟩ := epoch_batches_isSome id w2 e hs hP hB hnb h2 he hr hrot2 hlen1
  refine ⟨s, bs1, bs2, hs, hbs1, hbs2, ?_⟩
  intro b1 hb1 b2 hb2 x hx1 hx2
  obtain ⟨p1, hp1, lo1, hi1, e1⟩ :=
    batch_position hs hP hB hnb h1 he hr hrot1 hbs1 hb1 hx1
  obtain ⟨p2, hp2, lo2, hi2, e2⟩ :=
    batch_position hs hP hB hnb h2 he hr hrot2 hbs2 hb2 hx2
  have hpp : p1 = p2 := (hnodup.getElem_inj_iff).mp (e1.trans e2.symm)
  subst hpp
  have hc : 0 ≤ cfg.batch_size * cfg.num_batches := mul_nonneg (by omega) hnb
  have hwne : effective_id w1 e cfg.rank_shift cfg.nproc ≠
      effective_id w2 e cfg.rank_shift cfg.nproc :=
    fun h => hne (effective_id_inj hP h1 h2 he hr hrot1 hrot2 h)
  rcases lt_or_gt_of_ne hwne with hlt | hgt
  · have := mul_le_mul_of_nonneg_right
      (show effective_id w1 e cfg.rank_shift cfg.nproc + 1 ≤
        effective_id w2 e cfg.rank_shift cfg.nproc by omega) hc
    omega
  · have := mul_le_mul_of_nonneg_right
      (show effective_id w2 e cfg.rank_shift cfg.nproc + 1 ≤
        effective_id w1 e cfg.rank_shift cfg.nproc by omega) hc
    omega

/-- C2 witness: a shuffled ordering of 8 indices, workers 0 and 1 of 2,
epoch 3 with `rank_shift = 1`. -/
theorem worker_batches_disjoint_witness :
    ∃ s bs1 bs2,
      init_state 8 ⟨2, 2, 2, 4, 1, true⟩ = some s ∧
      epoch_batches ⟨2, 2, 2, 4, 1, true⟩ s [7, 3, 5, 1, 6, 0, 4, 2] 0 3 = some bs1 ∧
      epoch_batches ⟨2, 2, 2, 4, 1, true⟩ s [7, 3, 5, 1, 6, 0, 4, 2] 1 3 = some bs2 ∧
      ∀ b1 ∈ bs1, ∀ b2 ∈ bs2, ∀ x ∈ b1, x ∉ b2 :=
  worker_batches_disjoint 8 ⟨2, 2, 2, 4, 1, true⟩ [7, 3, 5, 1, 6, 0, 4, 2] 0 1 3
    (by decide) (by decide) (by decide) (by decide) (by decide) (by decide)
    (by decide) (by decide) (by decide) (by decide) (by decide) (by decide) (by decide)

/-- C5: with `N = 10`, 2 workers, `batch_size = 2` and 16 batches configured
(the input of C1), the shard count of worker 1 is `ns_loc = 32`, so
`floor(ns_loc / batch_size) = 16`, while its batch loop produces 2 batches:
line 184 adjusts `num_batches` to 2 and leaves `num_images = 64`. -/
theorem batch_count_below_shard_quotient :
    (init_state 10 ⟨2, 2, 16, 1, 0, false⟩).bind (fun s =>
      (epoch_batches ⟨2, 2, 16, 1, 0, false⟩ s s.id 1 0).map (fun bs =>
        (s.num_images, s.num_batches, bs.length,
          (parallel_dist s.num_images 2 (effective_id 1 0 0 2)).1 / 2)))
      = some (64, 2, 2, 16) := by
  decide

/-- The batch loop of an epoch when no `int` operation overflows: it produces
the final `num_batches` batches, at most `floor(ns_loc / batch_size)` and
exactly that many when `batch_size * num_batches * nproc ≤ N`, each of
`batch_size` entries. -/
theorem epoch_batches_count (N : Nat) (cfg : Config) (s : Setup)
    (id : List Int) (rank e : Int)
    (hs : init_state N cfg = some s)
    (hP : 1 ≤ cfg.nproc) (hB : 1 ≤ cfg.batch_size) (hnb : 0 ≤ cfg.num_batches)
    (hw : 0 ≤ rank ∧ rank < cfg.nproc) (he : 0 ≤ e) (hr : 0 ≤ cfg.rank_shift)
    (hrot : rank + e * cfg.rank_shift ≤ INT_MAX)
    (hid : (id.length : Int) = s.num_images) :
    ∃ bs, epoch_batches cfg s id rank e = some bs ∧
      (bs.length : Int) = s.num_batches ∧
      s.num_batches ≤ (parallel_dist s.num_images cfg.nproc
        (effective_id rank e cfg.rank_shift cfg.nproc)).1 / cfg.batch_size ∧
      (cfg.batch_size * cfg.num_batches * cfg.nproc ≤ (N : Int) →
        (bs.length : Int) = (parallel_dist s.num_images cfg.nproc
          (effective_id rank e cfg.rank_shift cfg.nproc)).1 / cfg.batch_size) ∧
      ∀ b ∈ bs, (b.length : Int) = cfg.batch_size := by
  obtain ⟨bs, hbs⟩ := epoch_batches_isSome id rank e hs hP hB hnb hw he hr hrot hid
  obtain ⟨-, -, -, hm0, hm, -, heq, -⟩ := init_state_facts hs hP hB hnb
  have hsorted := epoch_batches_sorted cfg s id rank e bs hbs
  have hbs1 := hbs
  unfold epoch_batches at hbs1
  obtain ⟨hlen, -⟩ := batch_loop_spec _ _ _ _ _ _ hbs1
  have hquot : cfg.batch_size * cfg.num_batches / cfg.batch_size = cfg.num_batches :=
    Int.mul_ediv_cancel_left _ (by omega)
  have hlenI : (bs.length : Int) = s.num_batches := by omega
  refine ⟨bs, hbs, hlenI, ?_, ?_, ?_⟩
  · rw [epoch_shard hs hP hB hnb]
    simp only [hquot]
    exact hm
  · intro hle
    rw [epoch_shard hs hP hB hnb]
    simp only [hquot]
    rw [hlenI]
    exact heq hle
  · intro b hb
    obtain ⟨i, hi, rfl⟩ := List.mem_iff_getElem.mp hb
    obtain ⟨-, sl, -, -, hl⟩ := hsorted i hi
    exact hl

/-- C6, as stated, fails: for `N = 100`, 4 workers, `batch_size = 5` and
`num_batches = 4` the partition call is made on `num_images = 80`, and the
shard count it hands back is 20, not 25.  With `rank_shift = 2000000000` the
`int` product of epoch 2 overflows, worker 1 hands over the rank `-3` and
produces no batch. -/
theorem shard_count_is_twenty :
    (init_state 100 ⟨4, 5, 4, 1, 0, false⟩).map (fun s =>
      (s.num_images, [(parallel_dist s.num_images 4 (effective_id 0 0 0 4)).1,
        (parallel_dist s.num_images 4 (effective_id 1 0 0 4)).1,
        (parallel_dist s.num_images 4 (effective_id 2 0 0 4)).1,
        (parallel_dist s.num_images 4 (effective_id 3 0 0 4)).1]))
      = some (80, [20, 20, 20, 20]) ∧
    (20 : Int) ≠ 25 ∧
    effective_id 1 2 2000000000 4 = -3 ∧
    (init_state 100 ⟨4, 5, 4, 3, 2000000000, false⟩).map (fun s =>
      epoch_batches ⟨4, 5, 4, 3, 2000000000, false⟩ s s.id 1 2) = some none := by
  decide

/-- C6, amended: for `N = 100`, 4 workers, `batch_size = 5` and
`num_batches = 4`, the partition call is made on `num_images = 80` and the
shard count handed back is 20 for every worker; each worker produces 4
batches of 5 samples in every epoch `e ≥ 0` with `rank_shift ≥ 0` and
`rank + e * rank_shift` within the `int` range. -/
theorem shard_twenty_four_batches_of_five (epochs rank_shift : Int)
    (shuffle : Bool) (id : List Int) (rank e : Int)
    (hw : 0 ≤ rank ∧ rank < 4) (he : 0 ≤ e) (hr : 0 ≤ rank_shift)
    (hrot : rank + e * rank_shift ≤ INT_MAX)
    (hid : id.length = 80) :
    ∃ s bs, init_state 100 ⟨4, 5, 4, epochs, rank_shift, shuffle⟩ = some s ∧
      s.num_images = 80 ∧ s.num_batches = 4 ∧
      (parallel_dist s.num_images 4 (effective_id rank e rank_shift 4)).1 = 20 ∧
      epoch_batches ⟨4, 5, 4, epochs, rank_shift, shuffle⟩ s id rank e = some bs ∧
      bs.length = 4 ∧ ∀ b ∈ bs, b.length = 5 := by
  have hP : (1 : Int) ≤ 4 := by decide
  have hB : (1 : Int) ≤ 5 := by decide
  have hnb : (0 : Int) ≤ 4 := by decide
  have hmax : (5 : Int) * 4 * 4 ≤ INT_MAX := by decide
  obtain ⟨s, hs⟩ := init_state_isSome 100 ⟨4, 5, 4, epochs, rank_shift, shuffle⟩
    hP hB hnb hmax
  obtain ⟨-, hni, -, -, -, -, heq, -⟩ := init_state_facts hs hP hB hnb
  simp only at hni heq
  have hni' : s.num_images = 80 := by rw [hni]; norm_num
  have hnb' : s.num_batches = 4 := heq (by norm_num)
  obtain ⟨bs, hbs, hlen, -, -, hall⟩ :=
    epoch_batches_count _ _ s id rank e hs hP hB hnb
      hw he hr hrot (by rw [hni', hid]; norm_num)
  have hsh := epoch_shard hs hP hB hnb (effective_id rank e rank_shift 4)
  simp only at hsh
  refine ⟨s, bs, hs, hni', hnb', ?_, hbs, by omega, ?_⟩
  · rw [hsh]
    norm_num
  · intro b hb
    have := hall b hb
    simp only at this
    omega

/-- C6 witness: worker 3, epoch 2, `rank_shift = 1`, identity ordering. -/
theorem shard_twenty_four_batches_of_five_witness :
    ∃ s bs, init_state 100 ⟨4, 5, 4, 3, 1, false⟩ = some s ∧
      s.num_images = 80 ∧ s.num_batches = 4 ∧
      (parallel_dist s.num_images 4 (effective_id 3 2 1 4)).1 = 20 ∧
      epoch_batches ⟨4, 5, 4, 3, 1, false⟩ s ((List.range 80).map Int.ofNat) 3 2 = some bs ∧
      bs.length = 4 ∧ ∀ b ∈ bs, b.length = 5 :=
  shard_twenty_four_batches_of_five 3 1 false ((List.range 80).map Int.ofNat) 3 2
    (by decide) (by decide) (by decide) (by decide) (by decide)

/-! ## The degenerate shard -/

end ReadCache
